import Mathlib

/-!
Shallow embedding of `uploader.py` (simple-vk-uploader) and verification of the
specification's claims about its resumable chunked-upload engine.

Embedded components, each translated from the source file `src/uploader.py`:
  * the chunk-plan loop and memory-mode / worker-count selection of
    `VKUploader.upload_video` (lines 604–656);
  * the chunk transfer executor `VKUploader._upload_chunk` (lines 487–547);
  * the result-merging loop of `upload_video` (lines 658–721);
  * the resume-offset probe `VKUploader._check_upload_status` (lines 457–479);
  * the outer retry loop of `upload_video` (lines 549–811);
  * `WireGuardManager.get_next_config` and the durable rotation marker
    (lines 185–250).
Machine integers do not appear: Python integers are unbounded, so `Nat`/`Int`
model them directly.  Python strings are modelled as `List Char`, with the
string primitives the source uses (`in`, `str.replace`, `str.split`, `int`)
embedded as structural functions below.
-/

/-! ### Chunk planner (`upload_video`, lines 608–633) -/

/-- The chunk-plan loop of `VKUploader.upload_video`.  Both the streaming branch
(lines 615–618) and the preload branch (lines 627–632) run the same loop:
`while bytes_uploaded < file_size:` take `min(chunk_size, file_size - bytes_uploaded)`
bytes at offset `bytes_uploaded`, then advance.  The loop is embedded with
explicit fuel; `fileSize - offset` iterations always suffice because each
iteration advances the offset by at least one byte whenever `chunkSize > 0`. -/
def chunkPlanAux : Nat → Nat → Nat → Nat → List (Nat × Nat)
  | 0, _, _, _ => []
  | fuel + 1, chunkSize, fileSize, offset =>
    if offset < fileSize then
      (offset, min chunkSize (fileSize - offset)) ::
        chunkPlanAux fuel chunkSize fileSize (offset + min chunkSize (fileSize - offset))
    else []

/-- The ordered `(offset, length)` chunk plan built for one upload attempt,
covering the byte range `[startByte, fileSize)`. -/
def chunkPlan (chunkSize fileSize startByte : Nat) : List (Nat × Nat) :=
  chunkPlanAux (fileSize - startByte) chunkSize fileSize startByte

/-- Predicate: `tilesB plan lo hi` holds when the `(offset, length)` pairs of `plan`, in
order, tile the interval `[lo, hi)` exactly: each offset equals the running
position (no gaps, no overlaps) and the final position is `hi`. -/
def tilesB : List (Nat × Nat) → Nat → Nat → Bool
  | [], lo, hi => lo == hi
  | (o, l) :: rest, lo, hi => o == lo && tilesB rest (lo + l) hi

/-- Memory-mode selection (lines 605–606): `file_size / (1024**3) > 1.5`.
Division of an integer by `2^30` is exact in binary floating point and
`1.5 * 2^30 = 1610612736`, so the float comparison in the source is exactly
the integer comparison `fileSize > 1610612736` for every file size. -/
def use_streaming (fileSize : Nat) : Bool := 1610612736 < fileSize

/-- The `chunks_to_upload` list (lines 608–633): offset, length, and the chunk
data — `none` in streaming mode (read on demand), in preload mode the slice
`file_data[chunk_offset : chunk_offset + current_chunk_size]` of the remaining
region `file_data` read once from `start_byte` (lines 623–625), where
`chunk_offset = bytes_uploaded - start_byte` (line 629).  The file content is
modelled as the list `fileData` of its bytes, so the remaining region is
`fileData.drop startByte`. -/
def chunks_to_upload (fileData : List Nat) (chunkSize startByte : Nat) :
    List (Nat × Nat × Option (List Nat)) :=
  if use_streaming fileData.length then
    (chunkPlan chunkSize fileData.length startByte).map (fun p => (p.1, p.2, none))
  else
    (chunkPlan chunkSize fileData.length startByte).map
      (fun p => (p.1, p.2, some (((fileData.drop startByte).drop (p.1 - startByte)).take p.2)))

/-- Worker-count selection (lines 648–656): `min(3, len(chunks_to_upload))`
without VPN, `min(2, len(chunks_to_upload))` for streaming-mode files behind
the VPN, otherwise `min(3, len(chunks_to_upload))`. -/
def max_workers (skipVpn : Bool) (fileSize numChunks : Nat) : Nat :=
  if skipVpn then min 3 numChunks
  else if use_streaming fileSize then min 2 numChunks
  else min 3 numChunks

/-! ### Chunk transfer executor (`_upload_chunk`, lines 487–547) -/

/-- Outcome of the single `upload_session.post` call in `_upload_chunk`:
an HTTP response with a status code, or one of the exception classes the
source catches (`requests.exceptions.ConnectTimeout`,
`requests.exceptions.Timeout`, any other `Exception`). -/
inductive HttpOutcome
  | status (code : Nat)
  | connectTimeout
  | readTimeout
  | otherException
  deriving DecidableEq

/-- Embedding of `VKUploader._upload_chunk`: classify one chunk transfer and return the pair
`(success, bytes_uploaded)`.  `chunkLen` is the length of the materialized
chunk data (preloaded or read on demand).  Zero-length data returns
`(True, 0)` before any network call (lines 504–506); status 200 or 201 is
success with the chunk's byte count (lines 531–536); any other status and
every caught exception returns `(False, 0)` (lines 531–547).  The source
catches every exception and performs exactly one post call, so the embedding
is a total function of one transport outcome. -/
def upload_chunk (chunkLen : Nat) (outcome : HttpOutcome) : Bool × Nat :=
  if chunkLen = 0 then (true, 0)
  else
    match outcome with
    | HttpOutcome.status code =>
      if code = 200 ∨ code = 201 then (true, chunkLen) else (false, 0)
    | HttpOutcome.connectTimeout => (false, 0)
    | HttpOutcome.readTimeout => (false, 0)
    | HttpOutcome.otherException => (false, 0)

/-! ### Result-merging loop (`upload_video`, lines 658–721) -/

/-- How the result-merging loop ends.  `aborted persistent n` records that an
`IncompleteUploadError` escaped the loop; `persistent` is true when its
message contains the substring `"consecutive chunk upload failures"` (the
pattern the outer handler matches to diagnose a persistent failure, line 761),
and `n` is the final value of `consecutive_timeouts`. -/
inductive MergeResult
  | completed (totalUploaded : Nat)
  | aborted (persistent : Bool) (finalCounter : Nat)
  deriving DecidableEq

/-- The result-merging loop over `as_completed` (lines 686–721).  `results`
lists each chunk's `(success, chunk_bytes)` pair in completion order; the
state is `(consecutive_timeouts, total_uploaded)`, starting at
`(0, start_byte)` (lines 659–660).  A successful result resets the counter and
adds its bytes.  A failed result increments the counter and raises
`IncompleteUploadError` — `"Aborting: N consecutive chunk upload failures"`
when the counter has reached `max_consecutive_timeouts = 3` (line 694),
otherwise `"Failed to upload chunk at byte ..."` (line 699); either raise is
caught by the surrounding `except Exception` (line 719), which increments the
counter once more and re-raises `"Chunk upload failed: <inner message>"`.
That exception escapes the loop, so merging stops at the first failed result. -/
def mergeLoop : List (Bool × Nat) → Nat → Nat → MergeResult
  | [], _, total => MergeResult.completed total
  | (ok, bytes) :: rest, counter, total =>
    if ok then mergeLoop rest 0 (total + bytes)
    else if 3 ≤ counter + 1 then MergeResult.aborted true (counter + 2)
    else MergeResult.aborted false (counter + 2)

/-- The successive values taken by `total_uploaded` while the merging loop
runs (it is updated only after a successful result, line 707; a failed result
raises before reaching the update). -/
def mergeTotals : List (Bool × Nat) → Nat → List Nat
  | [], _ => []
  | (ok, bytes) :: rest, total =>
    if ok then (total + bytes) :: mergeTotals rest (total + bytes) else []

/-! ### Python string primitives used by `_check_upload_status`

Python strings are modelled as `List Char`.  `pyIn` is the `in` operator,
`pyReplace` is `str.replace` (all non-overlapping occurrences, left to right),
`pySplit` is `str.split(sep)` with a non-empty separator, and `pyInt` is
`int(s)` returning `none` where Python raises `ValueError` (sign handling is
modelled; Python's tolerance for surrounding whitespace and underscores is
immaterial to the header formats involved). -/

/-- Whether `pat` is a prefix of `s` (Boolean, structural). -/
def startsWithP : List Char → List Char → Bool
  | [], _ => true
  | _ :: _, [] => false
  | p :: ps, c :: cs => p == c && startsWithP ps cs

/-- Python `pat in s` (substring containment). -/
def pyIn (pat : List Char) : List Char → Bool
  | [] => pat.isEmpty
  | c :: cs => startsWithP pat (c :: cs) || pyIn pat cs

/-- One fuel-indexed pass of `str.replace(pat, '')` with a non-empty pattern:
delete every non-overlapping occurrence, scanning left to right.  Fuel equal
to the string length always suffices. -/
def pyEraseAux (pat : List Char) : Nat → List Char → List Char
  | 0, s => s
  | _ + 1, [] => []
  | fuel + 1, c :: cs =>
    if startsWithP pat (c :: cs) && !pat.isEmpty then
      pyEraseAux pat fuel (List.drop (pat.length - 1) cs)
    else c :: pyEraseAux pat fuel cs

/-- Python `s.replace(pat, '')` for a non-empty `pat`. -/
def pyErase (pat s : List Char) : List Char :=
  pyEraseAux pat s.length s

/-- Python `s.split(sep)` for a single-character separator (the source splits
on `'-'`).  Splitting the empty string yields `[""]`, as in Python. -/
def pySplit (sep : Char) : List Char → List (List Char)
  | [] => [[]]
  | c :: cs =>
    if c == sep then [] :: pySplit sep cs
    else
      match pySplit sep cs with
      | [] => [[c]]
      | h :: t => (c :: h) :: t

/-- Digit-string value: `none` unless every character is a decimal digit and
the string is non-empty. -/
def parseDigits : List Char → Option Nat
  | [] => none
  | [c] => if c.isDigit then some (c.toNat - 48) else none
  | c :: cs =>
    if c.isDigit then
      (parseDigits cs).map (fun n => (c.toNat - 48) * 10 ^ cs.length + n)
    else none

/-- Python `int(s)`: optional sign followed by digits (`none` where Python
raises `ValueError`, e.g. on the empty string or a lone sign). -/
def pyInt : List Char → Option Int
  | [] => none
  | c :: cs =>
    if c = '-' then (parseDigits cs).map (fun n => -(n : Int))
    else if c = '+' then (parseDigits cs).map (fun n => (n : Int))
    else (parseDigits (c :: cs)).map (fun n => (n : Int))

/-! ### Resume-offset probe (`_check_upload_status`, lines 457–479) -/

/-- The two response headers `_check_upload_status` inspects.  A field is
`none` when the header is absent from the response. -/
structure ProbeResponse where
  rangeHeader : Option (List Char)
  xLastKnownByte : Option (List Char)

/-- The `Range`-header parse of lines 465–471 packaged as one step: when the
header contains `'bytes='`, strip it, split on `'-'`, and if that yields
exactly two parts with a non-empty numeric second part, the last known byte is
that value plus one (the range end is inclusive).  `none` covers every branch
on which the source leaves `last_byte = 0` or raises `ValueError` in `int`. -/
def rangeLastByte (h : List Char) : Option Int :=
  if pyIn ("bytes=".toList) h then
    match pySplit '-' (pyErase ("bytes=".toList) h) with
    | [_, second] =>
      if second.isEmpty then none else (pyInt second).map (fun n => n + 1)
    | _ => none
  else none

/-- Embedding of `VKUploader._check_upload_status`.  The argument is `none` when the probe
request itself errors (request exception or non-2xx status from
`raise_for_status`): the blanket `except` at line 477 returns 0.  When a
`Range` header is present the `elif` at line 472 never consults
`X-Last-Known-Byte`, and an unparsable value in either header also yields 0
through the blanket `except`. -/
def check_upload_status : Option ProbeResponse → Int
  | none => 0
  | some r =>
    match r.rangeHeader with
    | some h => (rangeLastByte h).getD 0
    | none =>
      match r.xLastKnownByte with
      | some v => (pyInt v).getD 0
      | none => 0

/-- The probe result as claim C5 reads it: `lastByte + 1` whenever a `Range`
header *of the parsable form* is present, **else** the integer value of an
`X-Last-Known-Byte` header, else 0.  This differs from the source exactly when
a `Range` header is present but unparsable while `X-Last-Known-Byte` is
present and numeric. -/
def claimedResumeOffset : Option ProbeResponse → Int
  | none => 0
  | some r =>
    match r.rangeHeader.bind rangeLastByte with
    | some n => n
    | none =>
      match r.xLastKnownByte with
      | some v => (pyInt v).getD 0
      | none => 0

/-- Lines 598–602: `start_byte = 0`, overwritten by the probe only when
`attempt > 0`. -/
def startByteFor (attempt : Nat) (probeResult : Int) : Int :=
  if 0 < attempt then probeResult else 0

/-! ### Outer retry loop (`upload_video`, lines 549–811) -/

/-- Classification of one attempt by the `except` arm of `upload_video` that
catches it (lines 739–807): `VkApiError`, `requests.Timeout`,
`IncompleteUploadError` (with whether its message matches the
persistent-failure pattern), `requests.RequestException`, or any other
exception. -/
inductive AttemptOutcome
  | success
  | vkApiError
  | requestTimeout
  | incompleteUpload (persistent : Bool)
  | requestException
  | unexpectedError
  deriving DecidableEq

/-- Backoff computed by each handler before a retry: `VkApiError` waits
`5 * (attempt + 1)` (line 743), `requests.Timeout` waits `10 * (attempt + 1)`
(line 752), `IncompleteUploadError` waits `15 * (attempt + 1)` (line 785),
`requests.RequestException` and the generic handler wait `5 * (attempt + 1)`
(lines 794, 803).  `attempt` is the zero-based loop index, so the multiplier
is the attempt number counted from 1. -/
def backoffSeconds : AttemptOutcome → Nat → Nat
  | AttemptOutcome.success, _ => 0
  | AttemptOutcome.vkApiError, attempt => 5 * (attempt + 1)
  | AttemptOutcome.requestTimeout, attempt => 10 * (attempt + 1)
  | AttemptOutcome.incompleteUpload _, attempt => 15 * (attempt + 1)
  | AttemptOutcome.requestException, attempt => 5 * (attempt + 1)
  | AttemptOutcome.unexpectedError, attempt => 5 * (attempt + 1)

/-- The `for attempt in range(max_retries)` loop: the first component is the
returned Boolean, the second the list of backoff sleeps performed, the third
the failure class last stored into `self.last_failure_reason` (each handler
records its reason before sleeping or returning, so on overall failure it is
the final attempt's class).  Every handler returns `False` without sleeping
when `attempt == max_retries - 1` (the `if attempt < max_retries - 1` guards).
The first argument is the fuel `maxRetries - attempt` (remaining attempts),
which makes the recursion structural. -/
def retryLoopAux (outcome : Nat → AttemptOutcome) : Nat → Nat → Bool × List Nat × Option AttemptOutcome
  | 0, _ => (false, [], none)
  | remaining + 1, attempt =>
    if outcome attempt = AttemptOutcome.success then (true, [], none)
    else if remaining = 0 then (false, [], some (outcome attempt))
    else
      let r := retryLoopAux outcome remaining (attempt + 1)
      (r.1, backoffSeconds (outcome attempt) attempt :: r.2.1, r.2.2)

/-- The outer retry loop started at attempt 0 with `max_retries` attempts
available (default 3, line 549). -/
def retryLoop (outcome : Nat → AttemptOutcome) (maxRetries : Nat) : Bool × List Nat × Option AttemptOutcome :=
  retryLoopAux outcome maxRetries 0

/-- The default of the `max_retries` parameter of `upload_video` (line 549). -/
def max_retries_default : Nat := 3

/-- One orchestrated attempt (lines 604–737), composed from the pieces above:
build the plan, pick the worker count — `ThreadPoolExecutor(max_workers=0)`
raises `ValueError`, which only the generic `except Exception` arm catches —
then run the merging loop; an aborted merge surfaces as
`IncompleteUploadError`, a drained one returns success. -/
def attemptOutcome (fileSize chunkSize startByte : Nat) (skipVpn : Bool)
    (results : List (Bool × Nat)) : AttemptOutcome :=
  let plan := chunkPlan chunkSize fileSize startByte
  if max_workers skipVpn fileSize plan.length = 0 then AttemptOutcome.unexpectedError
  else
    match mergeLoop results 0 startByte with
    | MergeResult.completed _ => AttemptOutcome.success
    | MergeResult.aborted p _ => AttemptOutcome.incompleteUpload p

/-- Embedding of `upload_video` as the retry loop over orchestrated attempts: `probe a` is
the probe result on retry attempt `a` (used only when `a > 0`, lines 598–600)
and `results a` is attempt `a`'s chunk-result sequence in completion order. -/
def upload_video (fileSize chunkSize : Nat) (skipVpn : Bool)
    (probe : Nat → Nat) (results : Nat → List (Bool × Nat)) (maxRetries : Nat) :
    Bool × List Nat × Option AttemptOutcome :=
  retryLoop (fun attempt =>
    attemptOutcome fileSize chunkSize (if 0 < attempt then probe attempt else 0)
      skipVpn (results attempt)) maxRetries

/-! ### WireGuard rotation (`WireGuardManager`, lines 177–250) -/

/-- Embedding of `WireGuardManager.get_next_config` (lines 192–217).  Configs are modelled
by their path strings in the pool's enumeration order; `lastConfig = none`
covers a missing or unreadable marker file (and an empty marker, which is
falsy in Python), in which case — as when the recorded path is not found by
`configs.index` (`ValueError`) — the source falls through to `configs[0]`.
Otherwise it returns `configs[(index + 1) % len(configs)]`. -/
def get_next_config : List String → Option String → Option String
  | [], _ => none
  | c :: _, none => some c
  | c :: cs, some lc =>
    match (c :: cs).indexOf? lc with
    | some i => (c :: cs).get? ((i + 1) % (c :: cs).length)
    | none => some c

/-- Successive rotations: `connect_wireguard` durably writes the config it
connected to into the marker file (lines 230 and 245), so each successful
rotation starts from the previously selected config. -/
def rotations (configs : List String) : Option String → Nat → List String
  | _, 0 => []
  | last, n + 1 =>
    match get_next_config configs last with
    | none => []
    | some c => c :: rotations configs (some c) n

/-! ### Properties of the chunk planner -/

/-- Predicate: every plan element except possibly the last has length exactly
`chunkSize` ("only the last length may be shorter"). -/
def nonLastFullB (chunkSize : Nat) : List (Nat × Nat) → Bool
  | [] => true
  | [_] => true
  | p :: q :: rest => p.2 == chunkSize && nonLastFullB chunkSize (q :: rest)

theorem chunkPlanAux_tilesB (chunkSize : Nat) (h2 : 0 < chunkSize) :
    ∀ fuel fileSize offset, offset ≤ fileSize → fileSize - offset ≤ fuel →
      tilesB (chunkPlanAux fuel chunkSize fileSize offset) offset fileSize = true := by
  intro fuel
  induction fuel with
  | zero =>
    intro fs off h1 hf
    have heq : off = fs := by omega
    subst heq
    simp [chunkPlanAux, tilesB]
  | succ fuel ih =>
    intro fs off h1 hf
    by_cases h : off < fs
    · have hmin₁ : min chunkSize (fs - off) ≤ fs - off := Nat.min_le_right _ _
      have hmin₂ : 0 < min chunkSize (fs - off) := by omega
      simp only [chunkPlanAux, if_pos h, tilesB, beq_self_eq_true, Bool.true_and]
      exact ih fs (off + min chunkSize (fs - off)) (by omega) (by omega)
    · have heq : off = fs := by omega
      subst heq
      simp [chunkPlanAux, h, tilesB]

theorem chunkPlanAux_len_le (chunkSize : Nat) :
    ∀ fuel fileSize offset p, p ∈ chunkPlanAux fuel chunkSize fileSize offset →
      p.2 ≤ chunkSize := by
  intro fuel
  induction fuel with
  | zero => intro fs off p hp; simp [chunkPlanAux] at hp
  | succ fuel ih =>
    intro fs off p hp
    by_cases h : off < fs
    · simp only [chunkPlanAux, if_pos h, List.mem_cons] at hp
      rcases hp with hp | hp
      · subst hp; exact Nat.min_le_left chunkSize (fs - off)
      · exact ih fs _ p hp
    · simp [chunkPlanAux, h] at hp

theorem chunkPlanAux_ne_nil (fuel chunkSize fileSize offset : Nat)
    (h : chunkPlanAux fuel chunkSize fileSize offset ≠ []) : offset < fileSize := by
  cases fuel with
  | zero => simp [chunkPlanAux] at h
  | succ fuel =>
    by_cases hlt : offset < fileSize
    · exact hlt
    · simp [chunkPlanAux, hlt] at h

theorem chunkPlanAux_nonLastFull (chunkSize : Nat) :
    ∀ fuel fileSize offset,
      nonLastFullB chunkSize (chunkPlanAux fuel chunkSize fileSize offset) = true := by
  intro fuel
  induction fuel with
  | zero => intro fs off; simp [chunkPlanAux, nonLastFullB]
  | succ fuel ih =>
    intro fs off
    by_cases h : off < fs
    · simp only [chunkPlanAux, if_pos h]
      cases hrest : chunkPlanAux fuel chunkSize fs (off + min chunkSize (fs - off)) with
      | nil => simp [nonLastFullB]
      | cons q t =>
        have hofs : off + min chunkSize (fs - off) < fs :=
          chunkPlanAux_ne_nil fuel chunkSize fs _ (by simp [hrest])
        have hmin₁ : min chunkSize (fs - off) ≤ chunkSize := Nat.min_le_left _ _
        have hmin : min chunkSize (fs - off) = chunkSize := by omega
        have htl := ih fs (off + min chunkSize (fs - off))
        rw [hrest] at htl
        simp [nonLastFullB, hmin, htl]
    · simp [chunkPlanAux, h, nonLastFullB]

/-- C1: for every `fileSize`, every `startOffset ≤ fileSize` and every
`chunkSize > 0`, the plan built for one attempt tiles `[startOffset, fileSize)`
exactly, in order, with no gaps and no overlaps; every length is at most
`chunkSize` and only the last may be shorter; and the concrete scenario
`fileSize = 10_000_000`, `chunkSize = 5_000_000`, `startOffset = 0` yields
exactly `[(0, 5_000_000), (5_000_000, 5_000_000)]`. -/
theorem chunk_plan_tiling (fileSize startOffset chunkSize : Nat)
    (h1 : startOffset ≤ fileSize) (h2 : 0 < chunkSize) :
    tilesB (chunkPlan chunkSize fileSize startOffset) startOffset fileSize = true ∧
    (∀ p ∈ chunkPlan chunkSize fileSize startOffset, p.2 ≤ chunkSize) ∧
    nonLastFullB chunkSize (chunkPlan chunkSize fileSize startOffset) = true ∧
    chunkPlan 5000000 10000000 0 = [(0, 5000000), (5000000, 5000000)] :=
  ⟨chunkPlanAux_tilesB chunkSize h2 _ fileSize startOffset h1 le_rfl,
   fun p hp => chunkPlanAux_len_le chunkSize _ fileSize startOffset p hp,
   chunkPlanAux_nonLastFull chunkSize _ fileSize startOffset,
   by decide⟩

/-- Witness for `chunk_plan_tiling` at the claim's concrete scenario. -/
theorem chunk_plan_tiling_witness :
    tilesB (chunkPlan 5000000 10000000 0) 0 10000000 = true ∧
    chunkPlan 5000000 10000000 0 = [(0, 5000000), (5000000, 5000000)] :=
  ⟨(chunk_plan_tiling 10000000 0 5000000 (by decide) (by decide)).1,
   (chunk_plan_tiling 10000000 0 5000000 (by decide) (by decide)).2.2.2⟩

/-! ### C2 and C3: behaviour of the merging loop and of an empty plan -/

/-- C2 (code bug): in the source, a single failed chunk is *not* absorbed into
the consecutive-failure counter — the `raise IncompleteUploadError` at line 699
(re-caught and re-raised at lines 719–721) escapes the result-merging loop, so
the very first failed result aborts the attempt with the counter at 2, the
threshold of 3 is never reached, and a failure followed by a success aborts
instead of completing.  This contradicts the comment at line 661
(`# Abort if 3 chunks timeout in a row`) and the claim. -/
theorem mergeLoop_aborts_on_first_failure :
    mergeLoop [(false, 0), (true, 5000000)] 0 0 = MergeResult.aborted false 2 ∧
    mergeLoop [(false, 0), (false, 0), (true, 1)] 0 0 = MergeResult.aborted false 2 ∧
    (∀ t, mergeLoop [(false, 0), (true, 5000000)] 0 0 ≠ MergeResult.completed t) := by
  refine ⟨rfl, rfl, ?_⟩
  intro t h
  simp [mergeLoop] at h

/-- C3 (code bug): when `fileSize = startOffset` (e.g. a zero-byte file on the
first attempt) the plan is empty, so `max_workers = min(3, 0) = 0` and
`ThreadPoolExecutor(max_workers=0)` raises `ValueError`; the generic
`except Exception` arm retries with 5-, then 10-second backoffs and
`upload_video` finally returns `False` — not the immediate success the claim
requires.  The default chunk size is 5 MiB = 5242880 (lines 323–337). -/
theorem upload_video_empty_plan_fails :
    chunkPlan 5242880 0 0 = [] ∧
    max_workers false 0 (chunkPlan 5242880 0 0).length = 0 ∧
    upload_video 0 5242880 false (fun _ => 0) (fun _ => []) 3 =
      (false, [5, 10], some AttemptOutcome.unexpectedError) := by
  refine ⟨rfl, rfl, ?_⟩
  decide

/-! ### C4: chunk transfer executor -/

/-- C4: `_upload_chunk` succeeds with 0 bytes on zero-length data, succeeds
with exactly the chunk's byte count on status 200 or 201, and fails with 0
bytes on any other status and on any transport timeout or connection
exception; being a total function of one transport outcome, it neither raises
to its caller nor retries internally. -/
theorem upload_chunk_classification (chunkLen : Nat) (outcome : HttpOutcome) :
    (chunkLen = 0 → upload_chunk chunkLen outcome = (true, 0)) ∧
    (chunkLen ≠ 0 → ∀ code, outcome = HttpOutcome.status code →
      ((code = 200 ∨ code = 201) → upload_chunk chunkLen outcome = (true, chunkLen)) ∧
      (¬(code = 200 ∨ code = 201) → upload_chunk chunkLen outcome = (false, 0))) ∧
    (chunkLen ≠ 0 → (∀ code, outcome ≠ HttpOutcome.status code) →
      upload_chunk chunkLen outcome = (false, 0)) := by
  refine ⟨?_, ?_, ?_⟩
  · intro h
    simp [upload_chunk, h]
  · intro h code hout
    subst hout
    constructor
    · intro hc
      simp only [upload_chunk, if_neg h]
      rw [if_pos hc]
    · intro hc
      simp only [upload_chunk, if_neg h]
      rw [if_neg hc]
  · intro h hns
    cases outcome with
    | status code => exact absurd rfl (hns code)
    | connectTimeout => simp [upload_chunk, h]
    | readTimeout => simp [upload_chunk, h]
    | otherException => simp [upload_chunk, h]

/-- Witness for `upload_chunk_classification`: a 7-byte chunk accepted with
status 201, rejected with status 500, and empty data at exact EOF. -/
theorem upload_chunk_classification_witness :
    upload_chunk 7 (HttpOutcome.status 201) = (true, 7) ∧
    upload_chunk 7 (HttpOutcome.status 500) = (false, 0) ∧
    upload_chunk 0 HttpOutcome.readTimeout = (true, 0) :=
  ⟨((upload_chunk_classification 7 (HttpOutcome.status 201)).2.1 (by decide) 201 rfl).1
      (Or.inr rfl),
   ((upload_chunk_classification 7 (HttpOutcome.status 500)).2.1 (by decide) 500 rfl).2
      (by decide),
   (upload_chunk_classification 0 HttpOutcome.readTimeout).1 rfl⟩

/-! ### String-parsing lemmas for the resume-offset probe -/

theorem parseDigits_digits : ∀ (s : List Char) (n : Nat), parseDigits s = some n →
    ∀ c ∈ s, c.isDigit := by
  intro s
  induction s with
  | nil => intro n h; simp [parseDigits] at h
  | cons c cs ih =>
    intro n h d hd
    cases cs with
    | nil =>
      simp only [parseDigits] at h
      split at h
      · next hc =>
        rcases List.mem_singleton.mp hd with rfl
        exact hc
      · exact absurd h (by simp)
    | cons e es =>
      simp only [parseDigits] at h
      split at h
      · next hc =>
        rcases List.mem_cons.mp hd with rfl | hd2
        · exact hc
        · rcases Option.map_eq_some'.mp h with ⟨m, hm, _⟩
          exact ih m hm d hd2
      · exact absurd h (by simp)

theorem pyInt_of_parseDigits (s : List Char) (n : Nat) (h : parseDigits s = some n) :
    pyInt s = some (n : Int) := by
  cases s with
  | nil => simp [parseDigits] at h
  | cons c cs =>
    have hd : c.isDigit := parseDigits_digits (c :: cs) n h c (List.mem_cons_self c cs)
    have h1 : c ≠ '-' := by rintro rfl; exact absurd hd (by decide)
    have h2 : c ≠ '+' := by rintro rfl; exact absurd hd (by decide)
    simp [pyInt, h1, h2, h]

theorem startsWithP_self_append (pat rest : List Char) :
    startsWithP pat (pat ++ rest) = true := by
  induction pat with
  | nil => rfl
  | cons p ps ih => simp [startsWithP, ih]

theorem pyIn_eq_false_of_head_notin (p0 : Char) (ps s : List Char) (h : p0 ∉ s) :
    pyIn (p0 :: ps) s = false := by
  induction s with
  | nil => rfl
  | cons c cs ih =>
    have hc : ¬p0 = c := fun e => h (by rw [e]; exact List.mem_cons_self c cs)
    have hcs : p0 ∉ cs := fun hm => h (List.mem_cons_of_mem c hm)
    simp [pyIn, startsWithP, beq_iff_eq, hc, ih hcs]

theorem pyEraseAux_of_not_in (pat : List Char) :
    ∀ fuel s, pyIn pat s = false → pyEraseAux pat fuel s = s := by
  intro fuel
  induction fuel with
  | zero => intro s _; rfl
  | succ fuel ih =>
    intro s h
    cases s with
    | nil => rfl
    | cons c cs =>
      simp only [pyIn, Bool.or_eq_false_iff] at h
      simp [pyEraseAux, h.1, ih cs h.2]

theorem pyErase_bytes (s : List Char) (hb : 'b' ∉ s) :
    pyErase ("bytes=".toList) ("bytes=0-".toList ++ s) = '0' :: '-' :: s := by
  have hnotin : 'b' ∉ '0' :: '-' :: s := by
    intro hm
    rcases List.mem_cons.mp hm with h1 | hm
    · exact absurd h1 (by decide)
    rcases List.mem_cons.mp hm with h1 | hm
    · exact absurd h1 (by decide)
    · exact hb hm
  have h0 : pyIn ("bytes=".toList) ('0' :: '-' :: s) = false :=
    pyIn_eq_false_of_head_notin 'b' _ _ hnotin
  have hstep : pyErase ("bytes=".toList) ("bytes=0-".toList ++ s)
      = pyEraseAux ("bytes=".toList) (s.length + 7) ('0' :: '-' :: s) := rfl
  rw [hstep, pyEraseAux_of_not_in _ _ _ h0]

theorem pySplit_of_not_mem (sep : Char) (s : List Char) (h : sep ∉ s) :
    pySplit sep s = [s] := by
  induction s with
  | nil => rfl
  | cons c cs ih =>
    have hc : ¬c = sep := fun e => h (by rw [← e]; exact List.mem_cons_self c cs)
    have hcs : sep ∉ cs := fun hm => h (List.mem_cons_of_mem c hm)
    simp [pySplit, beq_iff_eq, hc, ih hcs]

theorem pySplit_zero_dash (s : List Char) (h : '-' ∉ s) :
    pySplit '-' ('0' :: '-' :: s) = [['0'], s] := by
  simp [pySplit, pySplit_of_not_mem '-' s h]

theorem rangeLastByte_bytes (s : List Char) (n : Nat) (h : parseDigits s = some n) :
    rangeLastByte ("bytes=0-".toList ++ s) = some ((n : Int) + 1) := by
  have hdig := parseDigits_digits s n h
  have hb : 'b' ∉ s := fun hm => absurd (hdig 'b' hm) (by decide)
  have hdash : '-' ∉ s := fun hm => absurd (hdig '-' hm) (by decide)
  have hne : s ≠ [] := by rintro rfl; simp [parseDigits] at h
  have hin : pyIn ("bytes=".toList) ("bytes=0-".toList ++ s) = true := rfl
  have hie : s.isEmpty = false := by
    cases s
    · exact absurd rfl hne
    · rfl
  unfold rangeLastByte
  rw [hin, pyErase_bytes s hb, pySplit_zero_dash s hdash]
  simp [hie, pyInt_of_parseDigits s n h]

/-! ### C5: resume-offset probe -/

/-- C5 counterexample: with a `Range` header present but not of the parsable
form (`"garbage"`) and a numeric `X-Last-Known-Byte: 500` also present, the
claim prescribes 500 (fall through to the second header), but the source's
`elif` never consults `X-Last-Known-Byte` once `Range` is present, so the
probe returns 0. -/
theorem check_upload_status_counterexample :
    check_upload_status (some ⟨some ("garbage".toList), some ("500".toList)⟩) = 0 ∧
    claimedResumeOffset (some ⟨some ("garbage".toList), some ("500".toList)⟩) = 500 ∧
    (0 : Int) ≠ 500 := by
  refine ⟨by decide, by decide, by decide⟩

/-- C5 amended: the probe is issued only on retry attempts (the first attempt
starts at byte 0); it returns `lastByte + 1` when a `Range` header of the form
`bytes=0-N` (numeric `N`) is present, regardless of `X-Last-Known-Byte`; when
a `Range` header is present but not parsable it returns 0 *even if*
`X-Last-Known-Byte` is present; when no `Range` header is present it returns
the integer value of `X-Last-Known-Byte`; and it returns 0 when neither header
is present or the probe itself errors — in every case an offset, never a
failure. -/
theorem check_upload_status_amended :
    (∀ probe, startByteFor 0 probe = 0) ∧
    (∀ attempt probe, 0 < attempt → startByteFor attempt probe = probe) ∧
    check_upload_status none = 0 ∧
    (∀ s n x, parseDigits s = some n →
      check_upload_status (some ⟨some ("bytes=0-".toList ++ s), x⟩) = (n : Int) + 1) ∧
    (∀ r hdr, r.rangeHeader = some hdr → rangeLastByte hdr = none →
      check_upload_status (some r) = 0) ∧
    (∀ r v n, r.rangeHeader = none → r.xLastKnownByte = some v → pyInt v = some n →
      check_upload_status (some r) = n) ∧
    (∀ r, r.rangeHeader = none → r.xLastKnownByte = none →
      check_upload_status (some r) = 0) := by
  refine ⟨fun _ => rfl, ?_, rfl, ?_, ?_, ?_, ?_⟩
  · intro attempt probe h
    simp [startByteFor, h]
  · intro s n x h
    simp only [check_upload_status]
    rw [rangeLastByte_bytes s n h]
    rfl
  · intro r hdr h1 h2
    obtain ⟨rh, xh⟩ := r
    cases h1
    simp [check_upload_status, h2]
  · intro r v n h1 h2 h3
    obtain ⟨rh, xh⟩ := r
    cases h1
    cases h2
    simp [check_upload_status, h3]
  · intro r h1 h2
    obtain ⟨rh, xh⟩ := r
    cases h1
    cases h2
    simp [check_upload_status]

/-- Witness for `check_upload_status_amended`: `Range: bytes=0-12345` resumes
at 12346 even with an `X-Last-Known-Byte` present; `X-Last-Known-Byte: 500`
alone resumes at 500; the probe runs only on retries. -/
theorem check_upload_status_amended_witness :
    check_upload_status
      (some ⟨some ("bytes=0-".toList ++ "12345".toList), some ("999".toList)⟩) = 12346 ∧
    check_upload_status (some ⟨none, some ("500".toList)⟩) = 500 ∧
    startByteFor 0 7 = 0 ∧
    startByteFor 1 7 = 7 :=
  ⟨check_upload_status_amended.2.2.2.1 ("12345".toList) 12345 (some ("999".toList)) (by decide),
   check_upload_status_amended.2.2.2.2.2.1 ⟨none, some ("500".toList)⟩ ("500".toList) 500
     rfl rfl (by decide),
   check_upload_status_amended.1 7,
   check_upload_status_amended.2.1 1 7 (by decide)⟩

/-! ### C6: memory-mode and worker-count selection -/

theorem chunkPlanAux_offset_le (chunkSize : Nat) :
    ∀ fuel fileSize offset p, p ∈ chunkPlanAux fuel chunkSize fileSize offset →
      offset ≤ p.1 := by
  intro fuel
  induction fuel with
  | zero => intro fs off p hp; simp [chunkPlanAux] at hp
  | succ fuel ih =>
    intro fs off p hp
    by_cases h : off < fs
    · simp only [chunkPlanAux, if_pos h, List.mem_cons] at hp
      rcases hp with hp | hp
      · subst hp; exact le_rfl
      · have := ih fs (off + min chunkSize (fs - off)) p hp
        omega
    · simp [chunkPlanAux, h] at hp

/-- C6 counterexample: with path rotation disabled (`skip_vpn = True`) and a
1-byte file, the plan has one chunk and the source computes
`max_workers = min(3, 1) = 1`, not the 3 workers the claim states. -/
theorem max_workers_counterexample :
    max_workers true 1 (chunkPlan 5242880 1 0).length = 1 ∧
    max_workers true 1 (chunkPlan 5242880 1 0).length ≠ 3 := by
  refine ⟨by decide, by decide⟩

/-- C6 amended: streaming mode is selected exactly when
`fileSize > 1.5 GiB = 1610612736` bytes; the ranges of `chunks_to_upload` are
exactly the chunk plan; in streaming mode every chunk carries no preloaded
data, while in preload mode each chunk's data is exactly the file's bytes in
its range (the remaining region is read once and sliced); and the worker
count, computed once per attempt from the file size and the rotation flag, is
`min(3, numChunks)` when rotation is disabled, else `min(2, numChunks)` in
streaming mode, else `min(3, numChunks)`. -/
theorem mode_and_worker_selection (fileData : List Nat)
    (chunkSize startByte numChunks fileSize : Nat) (skipVpn : Bool) :
    (use_streaming fileSize = true ↔ 1610612736 < fileSize) ∧
    ((chunks_to_upload fileData chunkSize startByte).map (fun x => (x.1, x.2.1)) =
      chunkPlan chunkSize fileData.length startByte) ∧
    (use_streaming fileData.length = true →
      ∀ x ∈ chunks_to_upload fileData chunkSize startByte, x.2.2 = none) ∧
    (use_streaming fileData.length = false →
      ∀ x ∈ chunks_to_upload fileData chunkSize startByte,
        x.2.2 = some ((fileData.drop x.1).take x.2.1)) ∧
    (skipVpn = true → max_workers skipVpn fileSize numChunks = min 3 numChunks) ∧
    (skipVpn = false → use_streaming fileSize = true →
      max_workers skipVpn fileSize numChunks = min 2 numChunks) ∧
    (skipVpn = false → use_streaming fileSize = false →
      max_workers skipVpn fileSize numChunks = min 3 numChunks) := by
  refine ⟨?_, ?_, ?_, ?_, ?_, ?_, ?_⟩
  · simp [use_streaming]
  · by_cases h : use_streaming fileData.length
    · simp only [chunks_to_upload, if_pos h, List.map_map]
      have hid : ((fun x : Nat × Nat × Option (List Nat) => (x.1, x.2.1)) ∘
          (fun p : Nat × Nat => (p.1, p.2, (none : Option (List Nat))))) = id :=
        funext fun p => rfl
      rw [hid, List.map_id]
    · simp only [chunks_to_upload, if_neg h, List.map_map]
      have hid : ((fun x : Nat × Nat × Option (List Nat) => (x.1, x.2.1)) ∘
          (fun p : Nat × Nat =>
            (p.1, p.2, some (((fileData.drop startByte).drop (p.1 - startByte)).take p.2)))) =
          id :=
        funext fun p => rfl
      rw [hid, List.map_id]
  · intro h x hx
    simp only [chunks_to_upload, h, if_pos] at hx
    rcases List.mem_map.mp hx with ⟨p, _, rfl⟩
    rfl
  · intro h x hx
    simp only [chunks_to_upload, h] at hx
    rw [if_neg (by simp [h])] at hx
    rcases List.mem_map.mp hx with ⟨p, hp, rfl⟩
    have hle : startByte ≤ p.1 :=
      chunkPlanAux_offset_le chunkSize _ fileData.length startByte p hp
    have heq : startByte + (p.1 - startByte) = p.1 := by omega
    dsimp only
    rw [List.drop_drop, heq]
  · intro h
    simp [max_workers, h]
  · intro h1 h2
    simp [max_workers, h1, h2]
  · intro h1 h2
    simp [max_workers, h1, h2]

/-- Witness for `mode_and_worker_selection`: a 5-byte preloaded file sliced
into 2-byte chunks from offset 1, and the worker count for a small file with
rotation enabled. -/
theorem mode_and_worker_selection_witness :
    (∀ x ∈ chunks_to_upload [9, 8, 7, 6, 5] 2 1,
      x.2.2 = some (([9, 8, 7, 6, 5].drop x.1).take x.2.1)) ∧
    max_workers false 5 3 = min 3 3 :=
  ⟨(mode_and_worker_selection [9, 8, 7, 6, 5] 2 1 3 5 false).2.2.2.1 (by decide),
   (mode_and_worker_selection [9, 8, 7, 6, 5] 2 1 3 5 false).2.2.2.2.2.2 rfl (by decide)⟩

/-! ### C7: outer retry loop -/

theorem retryLoopAux_success_step (outcome : Nat → AttemptOutcome)
    (remaining attempt : Nat) (ho : outcome attempt = AttemptOutcome.success) :
    retryLoopAux outcome (remaining + 1) attempt = (true, [], none) := by
  rw [retryLoopAux, if_pos ho]

theorem retryLoopAux_last_step (outcome : Nat → AttemptOutcome) (attempt : Nat)
    (ho : outcome attempt ≠ AttemptOutcome.success) :
    retryLoopAux outcome (0 + 1) attempt = (false, [], some (outcome attempt)) := by
  rw [retryLoopAux, if_neg ho, if_pos rfl]

theorem retryLoopAux_fail_step (outcome : Nat → AttemptOutcome)
    (remaining attempt : Nat) (ho : outcome attempt ≠ AttemptOutcome.success)
    (hr : remaining ≠ 0) :
    retryLoopAux outcome (remaining + 1) attempt =
      ((retryLoopAux outcome remaining (attempt + 1)).1,
       backoffSeconds (outcome attempt) attempt ::
         (retryLoopAux outcome remaining (attempt + 1)).2.1,
       (retryLoopAux outcome remaining (attempt + 1)).2.2) := by
  rw [retryLoopAux, if_neg ho, if_neg hr]

theorem backoff_range_shift (outcome : Nat → AttemptOutcome) (attempt r : Nat) :
    backoffSeconds (outcome attempt) attempt ::
      (List.range r).map
        (fun k => backoffSeconds (outcome (attempt + 1 + k)) (attempt + 1 + k)) =
    (List.range (r + 1)).map
      (fun k => backoffSeconds (outcome (attempt + k)) (attempt + k)) := by
  rw [List.range_succ_eq_map, List.map_cons, List.map_map]
  refine congrArg₂ List.cons (by simp) (List.map_congr_left fun k _ => ?_)
  simp only [Function.comp_apply]
  rw [show attempt + 1 + k = attempt + (k + 1) from by omega]

theorem retryLoopAux_all_fail (outcome : Nat → AttemptOutcome) :
    ∀ remaining attempt,
      (∀ i, attempt ≤ i → i < attempt + remaining + 1 →
        outcome i ≠ AttemptOutcome.success) →
      retryLoopAux outcome (remaining + 1) attempt =
        (false,
         (List.range remaining).map
           (fun k => backoffSeconds (outcome (attempt + k)) (attempt + k)),
         some (outcome (attempt + remaining))) := by
  intro remaining
  induction remaining with
  | zero =>
    intro attempt hfail
    have ho := hfail attempt le_rfl (by omega)
    rw [retryLoopAux_last_step outcome attempt ho]
    simp
  | succ r ih =>
    intro attempt hfail
    have ho := hfail attempt le_rfl (by omega)
    rw [retryLoopAux_fail_step outcome (r + 1) attempt ho (Nat.succ_ne_zero r)]
    rw [ih (attempt + 1) (fun i h1 h2 => hfail i (by omega) (by omega))]
    dsimp only
    simp only [Prod.mk.injEq]
    refine ⟨trivial, backoff_range_shift outcome attempt r, ?_⟩
    rw [show attempt + 1 + r = attempt + (r + 1) from by omega]

theorem retryLoopAux_first_success (outcome : Nat → AttemptOutcome) :
    ∀ j remaining attempt, j < remaining →
      outcome (attempt + j) = AttemptOutcome.success →
      (∀ i, i < j → outcome (attempt + i) ≠ AttemptOutcome.success) →
      retryLoopAux outcome remaining attempt =
        (true,
         (List.range j).map
           (fun k => backoffSeconds (outcome (attempt + k)) (attempt + k)),
         none) := by
  intro j
  induction j with
  | zero =>
    intro remaining attempt hlt hsucc _
    obtain ⟨r, rfl⟩ : ∃ r, remaining = r + 1 := ⟨remaining - 1, by omega⟩
    simp only [Nat.add_zero] at hsucc
    rw [retryLoopAux_success_step outcome r attempt hsucc]
    simp
  | succ j ih =>
    intro remaining attempt hlt hsucc hfail
    obtain ⟨r, rfl⟩ : ∃ r, remaining = r + 1 := ⟨remaining - 1, by omega⟩
    have ho : outcome attempt ≠ AttemptOutcome.success := by
      have h0 := hfail 0 (Nat.succ_pos j)
      simpa using h0
    have hr : r ≠ 0 := by
      intro hr0
      subst hr0
      omega
    rw [retryLoopAux_fail_step outcome r attempt ho hr]
    rw [ih r (attempt + 1) (by omega)
      (by rw [show attempt + 1 + j = attempt + (j + 1) from by omega]; exact hsucc)
      (fun i hi => by
        rw [show attempt + 1 + i = attempt + (i + 1) from by omega]
        exact hfail (i + 1) (by omega))]
    dsimp only
    simp only [Prod.mk.injEq]
    exact ⟨trivial, backoff_range_shift outcome attempt j, trivial⟩

/-- C7: the retry loop makes at most `maxRetries` attempts (`max_retries`
defaults to 3); when every attempt fails it returns `False`, sleeps exactly
once between consecutive attempts — with the failure-class backoff
`base * attemptNumber`, `attemptNumber` counted from 1 — and records the last
attempt's failure reason; a first success at attempt `j` stops the loop with
`True` after the backoffs of the `j` failed attempts before it; and the
backoff bases are 5 s for API errors, 10 s for timeouts, 15 s for
persistent-failure / incomplete-transfer, and 5 s for network or unexpected
errors. -/
theorem retry_loop_policy (outcome : Nat → AttemptOutcome) (maxRetries : Nat)
    (hm : 0 < maxRetries) :
    max_retries_default = 3 ∧
    ((∀ i, i < maxRetries → outcome i ≠ AttemptOutcome.success) →
      retryLoop outcome maxRetries =
        (false,
         (List.range (maxRetries - 1)).map (fun k => backoffSeconds (outcome k) k),
         some (outcome (maxRetries - 1)))) ∧
    (∀ j, j < maxRetries → outcome j = AttemptOutcome.success →
      (∀ i, i < j → outcome i ≠ AttemptOutcome.success) →
      retryLoop outcome maxRetries =
        (true, (List.range j).map (fun k => backoffSeconds (outcome k) k), none)) ∧
    (∀ n, backoffSeconds AttemptOutcome.vkApiError n = 5 * (n + 1) ∧
      backoffSeconds AttemptOutcome.requestTimeout n = 10 * (n + 1) ∧
      (∀ b, backoffSeconds (AttemptOutcome.incompleteUpload b) n = 15 * (n + 1)) ∧
      backoffSeconds AttemptOutcome.requestException n = 5 * (n + 1) ∧
      backoffSeconds AttemptOutcome.unexpectedError n = 5 * (n + 1)) := by
  refine ⟨rfl, ?_, ?_, fun n => ⟨rfl, rfl, fun b => rfl, rfl, rfl⟩⟩
  · intro hfail
    obtain ⟨m, rfl⟩ : ∃ m, maxRetries = m + 1 := ⟨maxRetries - 1, by omega⟩
    have h := retryLoopAux_all_fail outcome m 0 (fun i _ h2 => hfail i (by omega))
    simpa [retryLoop] using h
  · intro j hj hsucc hfail
    have h := retryLoopAux_first_success outcome j maxRetries 0 hj
      (by simpa using hsucc) (fun i hi => by simpa using hfail i hi)
    simpa [retryLoop] using h

/-- Witness for `retry_loop_policy`: three attempts all timing out sleep 10 s
then 20 s and report the timeout; a success on the second attempt after an API
error sleeps 5 s once. -/
theorem retry_loop_policy_witness :
    retryLoop (fun _ => AttemptOutcome.requestTimeout) 3 =
      (false, [10, 20], some AttemptOutcome.requestTimeout) ∧
    retryLoop (fun i => if i = 0 then AttemptOutcome.vkApiError else AttemptOutcome.success) 3 =
      (true, [5], none) := by
  constructor
  · have h := (retry_loop_policy (fun _ => AttemptOutcome.requestTimeout) 3 (by decide)).2.1
      (fun i _ => by decide)
    rw [h]
    decide
  · have h := (retry_loop_policy
        (fun i => if i = 0 then AttemptOutcome.vkApiError else AttemptOutcome.success) 3
        (by decide)).2.2.1 1 (by decide) (by decide) (fun i hi => by
          interval_cases i
          decide)
    rw [h]
    decide

/-! ### C8: progress accumulation -/

theorem mergeLoop_completed :
    ∀ (results : List (Bool × Nat)) (counter total t : Nat),
      mergeLoop results counter total = MergeResult.completed t →
      t = total + (results.map Prod.snd).sum ∧ ∀ r ∈ results, r.1 = true := by
  intro results
  induction results with
  | nil =>
    intro counter total t h
    simp only [mergeLoop, MergeResult.completed.injEq] at h
    simp [h]
  | cons hd tl ih =>
    obtain ⟨ok, bytes⟩ := hd
    intro counter total t h
    cases ok with
    | true =>
      simp only [mergeLoop, if_pos rfl] at h
      obtain ⟨ht, hall⟩ := ih 0 (total + bytes) t h
      refine ⟨by simp [ht]; omega, ?_⟩
      intro r hr
      rcases List.mem_cons.mp hr with rfl | hr
      · rfl
      · exact hall r hr
    | false =>
      exfalso
      simp only [mergeLoop] at h
      split at h
      · simp_all
      · split at h <;> simp_all

theorem mergeTotals_chain (results : List (Bool × Nat)) :
    ∀ total, List.Chain (· ≤ ·) total (mergeTotals results total) := by
  induction results with
  | nil => intro total; exact List.Chain.nil
  | cons hd tl ih =>
    obtain ⟨ok, bytes⟩ := hd
    intro total
    cases ok with
    | true =>
      simp only [mergeTotals, if_pos rfl]
      exact List.Chain.cons (Nat.le_add_right total bytes) (ih (total + bytes))
    | false =>
      simp only [mergeTotals]
      exact List.Chain.nil

/-- C8: within an attempt the confirmed-bytes total starts at the resume
offset and never decreases (its successive values form a `≤`-chain from the
offset); whenever the merging loop drains (a successful attempt) every chunk
was accepted and the final total equals the resume offset plus the sum of all
accepted chunk byte counts; and this total is independent of the completion
order — any permutation of the results that also drains yields the same
total.  The loop itself is a serial fold over completions, the single point
mutating the progress state. -/
theorem transfer_progress (results : List (Bool × Nat)) (startByte : Nat) :
    List.Chain (· ≤ ·) startByte (mergeTotals results startByte) ∧
    (∀ t, mergeLoop results 0 startByte = MergeResult.completed t →
      t = startByte + (results.map Prod.snd).sum ∧ ∀ r ∈ results, r.1 = true) ∧
    (∀ results' t t', results.Perm results' →
      mergeLoop results 0 startByte = MergeResult.completed t →
      mergeLoop results' 0 startByte = MergeResult.completed t' → t = t') := by
  refine ⟨mergeTotals_chain results startByte, ?_, ?_⟩
  · intro t h
    exact mergeLoop_completed results 0 startByte t h
  · intro results' t t' hperm h h'
    have h1 := (mergeLoop_completed results 0 startByte t h).1
    have h2 := (mergeLoop_completed results' 0 startByte t' h').1
    have hsum : (results.map Prod.snd).sum = (results'.map Prod.snd).sum :=
      (hperm.map Prod.snd).sum_eq
    omega

/-- Witness for `transfer_progress`: two accepted chunks of 3 and 4 bytes
merged after a resume offset of 5, in either completion order, end at 12. -/
theorem transfer_progress_witness :
    (12 = 5 + (([((true : Bool), 3), (true, 4)]).map Prod.snd).sum ∧
      ∀ r ∈ ([((true : Bool), 3), (true, 4)]), r.1 = true) ∧
    (12 : Nat) = 12 :=
  ⟨(transfer_progress [((true : Bool), 3), (true, 4)] 5).2.1 12 (by decide),
   (transfer_progress [((true : Bool), 3), (true, 4)] 5).2.2
     [((true : Bool), 4), (true, 3)] 12 12 (by decide) (by decide) (by decide)⟩

/-! ### C9 and C10: WireGuard round-robin rotation -/

theorem nodup_indexOf?_get : ∀ (l : List String), l.Nodup →
    ∀ i (hi : i < l.length), l.indexOf? (l.get ⟨i, hi⟩) = some i := by
  intro l
  induction l with
  | nil => intro _ i hi; simp at hi
  | cons c cs ih =>
    intro h i hi
    obtain ⟨hni, hnd⟩ := List.nodup_cons.mp h
    cases i with
    | zero => simp [List.indexOf?_cons]
    | succ j =>
      have hj : j < cs.length := by simpa using hi
      have hne : ¬(c == cs.get ⟨j, hj⟩) = true := by
        simp only [beq_iff_eq]
        intro e
        exact hni (by rw [e]; exact List.get_mem cs j hj)
      rw [show (c :: cs).get ⟨j + 1, hi⟩ = cs.get ⟨j, hj⟩ from rfl]
      rw [List.indexOf?_cons, if_neg hne, ih hnd j hj]
      rfl

theorem get_next_config_getD (l : List String) (h : l.Nodup)
    (i : Nat) (hi : i < l.length) :
    get_next_config l (some (l.getD i "")) =
      some (l.getD ((i + 1) % l.length) "") := by
  cases l with
  | nil => simp at hi
  | cons c cs =>
    have hIdx : (c :: cs).indexOf? ((c :: cs).getD i "") = some i := by
      rw [List.getD_eq_get _ _ hi]
      exact nodup_indexOf?_get (c :: cs) h i hi
    have hmod : (i + 1) % (c :: cs).length < (c :: cs).length :=
      Nat.mod_lt _ (by simp)
    simp only [get_next_config]
    rw [hIdx]
    dsimp only
    rw [List.get?_eq_get hmod, List.getD_eq_get _ _ hmod]

theorem rotations_closed (l : List String) (hnd : l.Nodup) :
    ∀ n i, i < l.length →
      rotations l (some (l.getD i "")) n =
        (List.range n).map (fun k => l.getD ((i + 1 + k) % l.length) "") := by
  intro n
  induction n with
  | zero => intro i hi; rfl
  | succ n ih =>
    intro i hi
    have hlen : 0 < l.length := by omega
    simp only [rotations]
    rw [get_next_config_getD l hnd i hi]
    dsimp only
    rw [ih ((i + 1) % l.length) (Nat.mod_lt _ hlen)]
    rw [List.range_succ_eq_map, List.map_cons, List.map_map]
    refine congrArg₂ List.cons (by simp) (List.map_congr_left fun k _ => ?_)
    simp only [Function.comp_apply]
    congr 1
    conv_lhs => rw [show (i + 1) % l.length + 1 + k = (i + 1) % l.length + (1 + k) from by omega]
    rw [Nat.mod_add_mod]
    congr 1
    omega

/-- C9: rotation is a round-robin over the pool: from the durably recorded
config at position `i` the next selected config is the one at position
`(i + 1) mod N` (and each successful connect durably records its config, which
is what threads one rotation into the next); consequently, for a
duplicate-free pool of `N` configs, `N` successive rotations produce `N`
pairwise-distinct configs covering the whole pool before any repeat. -/
theorem round_robin_rotation (configs : List String) (h : configs.Nodup)
    (i : Nat) (hi : i < configs.length) :
    get_next_config configs (some (configs.getD i "")) =
      some (configs.getD ((i + 1) % configs.length) "") ∧
    (rotations configs (some (configs.getD i "")) configs.length).length =
      configs.length ∧
    (rotations configs (some (configs.getD i "")) configs.length).Nodup ∧
    (∀ c ∈ configs,
      c ∈ rotations configs (some (configs.getD i "")) configs.length) := by
  have hlen : 0 < configs.length := by omega
  have hclosed := rotations_closed configs h configs.length i hi
  have hlenS : (rotations configs (some (configs.getD i "")) configs.length).length
      = configs.length := by
    rw [hclosed]
    simp
  have hsub : ∀ x ∈ rotations configs (some (configs.getD i "")) configs.length,
      x ∈ configs := by
    intro x hx
    rw [hclosed] at hx
    rcases List.mem_map.mp hx with ⟨k, _, rfl⟩
    rw [List.getD_eq_get _ _ (Nat.mod_lt _ hlen)]
    exact List.get_mem _ _ _
  have hndS : (rotations configs (some (configs.getD i "")) configs.length).Nodup := by
    rw [hclosed]
    refine List.Nodup.map_on ?_ (List.nodup_range _)
    intro k1 hk1 k2 hk2 heq
    simp only [List.mem_range] at hk1 hk2
    rw [List.getD_eq_get _ _ (Nat.mod_lt _ hlen),
      List.getD_eq_get _ _ (Nat.mod_lt _ hlen)] at heq
    have hidx : (i + 1 + k1) % configs.length = (i + 1 + k2) % configs.length := by
      have hfin := (List.Nodup.get_inj_iff h).mp heq
      simpa using hfin
    have hc : k1 ≡ k2 [MOD configs.length] := by
      refine Nat.ModEq.add_left_cancel' (i + 1) ?_
      unfold Nat.ModEq
      simpa [Nat.add_assoc] using hidx
    have hceq : k1 % configs.length = k2 % configs.length := hc
    rw [Nat.mod_eq_of_lt hk1, Nat.mod_eq_of_lt hk2] at hceq
    exact hceq
  refine ⟨get_next_config_getD configs h i hi, hlenS, hndS, ?_⟩
  intro c hc
  have hsubF : (rotations configs (some (configs.getD i "")) configs.length).toFinset
      ⊆ configs.toFinset := fun x hx =>
    List.mem_toFinset.mpr (hsub x (List.mem_toFinset.mp hx))
  have hcard1 : (rotations configs (some (configs.getD i "")) configs.length).toFinset.card
      = configs.length := by
    rw [List.toFinset_card_of_nodup hndS, hlenS]
  have hcard2 : configs.toFinset.card = configs.length :=
    List.toFinset_card_of_nodup h
  have hFeq := Finset.eq_of_subset_of_card_le hsubF (by omega)
  have : c ∈ (rotations configs (some (configs.getD i "")) configs.length).toFinset := by
    rw [hFeq]
    exact List.mem_toFinset.mpr hc
  exact List.mem_toFinset.mp this

/-- Witness for `round_robin_rotation`: from the recorded path `"b"` in the
pool `["a", "b", "c"]`, three rotations visit all three paths with no
repeat. -/
theorem round_robin_rotation_witness :
    (rotations ["a", "b", "c"] (some ((["a", "b", "c"] : List String).getD 1 "")) 3).Nodup ∧
    ∀ c ∈ (["a", "b", "c"] : List String),
      c ∈ rotations ["a", "b", "c"] (some ((["a", "b", "c"] : List String).getD 1 "")) 3 :=
  ⟨(round_robin_rotation ["a", "b", "c"] (by decide) 1 (by decide)).2.2.1,
   (round_robin_rotation ["a", "b", "c"] (by decide) 1 (by decide)).2.2.2⟩

/-- C10: `get_next_config` returns `None` on an empty pool; with no readable
marker (file absent, unreadable, or empty) it returns the first config; and
when the recorded path is not in the current pool (`list.index` raises
`ValueError`) it also falls back to the first config rather than failing. -/
theorem get_next_config_fallback (configs : List String) (lc : String) :
    get_next_config [] (some lc) = none ∧
    get_next_config ([] : List String) none = none ∧
    (configs ≠ [] → get_next_config configs none = configs.head?) ∧
    (configs ≠ [] → lc ∉ configs → get_next_config configs (some lc) = configs.head?) := by
  refine ⟨rfl, rfl, ?_, ?_⟩
  · intro hne
    cases configs with
    | nil => exact absurd rfl hne
    | cons c cs => rfl
  · intro hne hnotin
    cases configs with
    | nil => exact absurd rfl hne
    | cons c cs =>
      have hidx : (c :: cs).indexOf? lc = none :=
        List.indexOf?_eq_none_iff.mpr (fun x hx => by
          simp only [beq_iff_eq]
          intro e
          exact hnotin (by rw [← e]; exact hx))
      simp only [get_next_config]
      rw [hidx]
      rfl

/-- Witness for `get_next_config_fallback`: a pool of two configs with a
missing marker, and with a marker naming a config outside the pool. -/
theorem get_next_config_fallback_witness :
    get_next_config ["a", "b"] none = (["a", "b"] : List String).head? ∧
    get_next_config ["a", "b"] (some "zz") = (["a", "b"] : List String).head? :=
  ⟨(get_next_config_fallback ["a", "b"] "zz").2.2.1 (by decide),
   (get_next_config_fallback ["a", "b"] "zz").2.2.2 (by decide) (by decide)⟩
